import Mathlib

/-!
Verification of the package-identifier parsing and update-classification
logic of `fedora-update-notifier` (src/main.rs), via a shallow embedding.

Strings are modelled as `List Char` (`Str`); Rust's `rsplitn(2, c)` on a
string that contains `c` corresponds to splitting at the last occurrence
of `c` (`splitLast`), and `split(c)` taking the first two fields
corresponds to `splitFirst` applied twice.
-/

namespace FUN

/-- Strings, modelled as lists of characters. -/
abbrev Str := List Char

/-- Split a string at the *last* occurrence of `sep`:
`splitLast sep s = some (pre, post)` iff `s = pre ++ sep :: post` with
`sep ∉ post`.  This is Rust `rsplitn(2, sep)` yielding two fields
(`[post, pre]`, in reverse order); `none` models the arity-mismatch error
branch (`len != 2`). -/
def splitLast (sep : Char) : Str → Option (Str × Str)
  | [] => none
  | c :: rest =>
    match splitLast sep rest with
    | some (pre, post) => some (c :: pre, post)
    | none => if c = sep then some ([], rest) else none

/-- Split a string at the *first* occurrence of `sep`; used to model Rust
`split(sep)` when only the first fields are consumed. -/
def splitFirst (sep : Char) : Str → Option (Str × Str)
  | [] => none
  | c :: rest =>
    if c = sep then some ([], rest)
    else
      match splitFirst sep rest with
      | some (pre, post) => some (c :: pre, post)
      | none => none

/-- The epoch/version handling of `parse_nevra` (src/main.rs lines 62-69):
if `ev` contains `:`, Rust collects `ev.split(':')` and takes elements 0
and 1 as `(e, v)`; otherwise `("0", ev)`. -/
def splitEV (ev : Str) : Str × Str :=
  match splitFirst ':' ev with
  | none => (['0'], ev)
  | some (e, rest) =>
    match splitFirst ':' rest with
    | none => (e, rest)
    | some (v, _) => (e, v)

/-- The function `parse_nevra` (src/main.rs lines 40-72): split off architecture after
the last `.`, then split the remainder from the right on `-` into
name / epoch-or-version / release (`rsplitn(3, '-')`), then split the
middle part on `:`. -/
def parse_nevra (nevra : Str) : Option (Str × Str × Str × Str × Str) := do
  let (nevr, a) ← splitLast '.' nevra
  let (nev, r) ← splitLast '-' nevr
  let (n, ev) ← splitLast '-' nev
  some (n, (splitEV ev).1, (splitEV ev).2, r, a)

/-- The function `parse_filename` (src/main.rs lines 74-90): strip the extension after
the last `.`, then `parse_nevra` on the remainder. -/
def parse_filename (nevrax : Str) : Option (Str × Str × Str × Str × Str) := do
  let (nevra, _x) ← splitLast '.' nevrax
  parse_nevra nevra

/-- The function `parse_nvr` (src/main.rs lines 92-105): `rsplitn(3, '-')` into
name / version / release. -/
def parse_nvr (nvr : Str) : Option (Str × Str × Str) := do
  let (nv, r) ← splitLast '-' nvr
  let (n, v) ← splitLast '-' nv
  some (n, v, r)

example : parse_filename ("foo-bar-1:2.3-4.fc40.x86_64.rpm".toList) =
    some ("foo-bar".toList, ("1".toList), ("2.3".toList), ("4.fc40".toList), ("x86_64".toList)) := by
  decide

example : parse_filename ("pkg-1.0-1.fc40.noarch.rpm".toList) =
    some ("pkg".toList, ("0".toList), ("1.0".toList), ("1.fc40".toList), ("noarch".toList)) := by
  decide

example : parse_filename ("nohyphen.rpm".toList) = none := by decide

example : parse_nvr ("--".toList) = some ([], [], []) := by decide

example : parse_nevra ("n-1:2:3-r.a".toList) =
    some ("n".toList, ("1".toList), ("2".toList), ("r".toList), ("a".toList)) := by decide

/-- The `NVR` struct (src/main.rs lines 15-20); `#[derive(PartialEq)]`
makes matching field-wise equality. -/
structure NVR where
  n : Str
  v : Str
  r : Str
deriving DecidableEq, Repr

/-- The projection used by the inventory builder and both classifier
stages: keep name, version, release of a parsed five-tuple, discard epoch
and architecture (`let (n, _, v, r, _) = ...; NVR { n, v, r }`). -/
def toNVR (t : Str × Str × Str × Str × Str) : NVR :=
  ⟨t.1, t.2.2.1, t.2.2.2.1⟩

/-- Fallible iteration with early abort: models a Rust `for` loop whose
body uses the `?` operator (any failure aborts the whole run). -/
def optMap (f : α → Option β) : List α → Option (List β)
  | [] => some []
  | a :: l => do
    let b ← f a
    let bs ← optMap f l
    some (b :: bs)

/-- Rust `str::trim`: drop leading and trailing whitespace. -/
def trimChars (s : Str) : Str :=
  ((s.dropWhile Char.isWhitespace).reverse.dropWhile Char.isWhitespace).reverse

/-- Rust `str::split(sep)`: split at every occurrence of `sep`; the
empty string yields one empty field. -/
def splitOnChar (sep : Char) : Str → List Str
  | [] => [[]]
  | c :: rest =>
    if c = sep then [] :: splitOnChar sep rest
    else
      match splitOnChar sep rest with
      | [] => [[c]]
      | l :: ls => (c :: l) :: ls

/-- The local inventory builder (src/main.rs lines 281-287): trim the raw
`dnf` output, split on newlines, parse every line as a filename, keep
`(n, v, r)`. -/
def buildInventory (raw : Str) : Option (List NVR) :=
  let lines := splitOnChar '\n' (trimChars raw)
  optMap (fun line =>
    match parse_filename line with
    | none => none
    | some t => some (toNVR t)) lines

/-- Bodhi `User` (external data model): only the `name` field is read. -/
structure User where
  name : Str
deriving DecidableEq, Repr

/-- Bodhi `Comment`: only the comment author is read. -/
structure Comment where
  user : User
deriving DecidableEq, Repr

/-- Bodhi `Build`: carries the `nvr` string. -/
structure Build where
  nvr : Str
deriving DecidableEq, Repr

/-- Bodhi `Update`: alias, author, optional comments, builds — the fields
the classifier reads. -/
structure Update where
  «alias» : Str
  user : User
  comments : Option (List Comment)
  builds : List Build
deriving DecidableEq, Repr

/-- Stage 1, the authorship filter (src/main.rs lines 309-313): drop
updates whose author is the configured user. -/
def authorFiltered (username : Str) (updates : List Update) : List Update :=
  updates.filter (fun u => decide (u.user.name ≠ username))

/-- The per-update predicate of stage 2 (src/main.rs lines 317-333): an
update passes when it has no comments at all, or none of its comments is
by the configured user. -/
def notCommented (username : Str) (u : Update) : Bool :=
  match u.comments with
  | none => true
  | some comments => ! comments.any (fun c => decide (c.user.name = username))

/-- Stage 2 output `relevant_updates` (src/main.rs lines 315-333), applied
to the stage-1 output. -/
def relevantUpdates (username : Str) (updates : List Update) : List Update :=
  (authorFiltered username updates).filter (notCommented username)

/-- Parse all builds of an update with `parse_nvr`, aborting the run on
the first failure (the `?` in the build loops, src/main.rs lines 340-343
and 400-403). -/
def updateNVRs (u : Update) : Option (List NVR) :=
  optMap (fun b =>
    match parse_nvr b.nvr with
    | none => none
    | some t => some ⟨t.1, t.2.1, t.2.2⟩) u.builds

/-- Stage 3, first loop (src/main.rs lines 336-350): for each relevant
update, the update is pushed once per parsed build NVR found in the local
inventory (duplicates and all). -/
def installedUpdates (packages : List NVR) (relevant : List Update) :
    Option (List Update) :=
  match optMap (fun u =>
    match updateNVRs u with
    | none => none
    | some nvrs =>
      some ((nvrs.filter (fun nvr => decide (nvr ∈ packages))).map (fun _ => u)))
    relevant with
  | none => none
  | some ls => some ls.flatten

/-- Stage 3, second loop (src/main.rs lines 353-359): collect every
build name of every installed update. -/
def feedbackNames (installed : List Update) : Option (List Str) :=
  match optMap (fun u =>
    optMap (fun b =>
      match parse_nvr b.nvr with
      | none => none
      | some t => some t.1) u.builds) installed with
  | none => none
  | some names => some names.flatten

/-- Rust `Vec::dedup_by` (src/main.rs lines 363 and 441): drop every
element equal (under `eq`) to the last kept element. -/
def dedupBy (eq : α → α → Bool) : List α → List α
  | [] => []
  | a :: rest => a :: go a rest
where
  /-- Walk the tail comparing with the last kept element `prev`. -/
  go (prev : α) : List α → List α
  | [] => []
  | x :: rest => if eq x prev then go prev rest else x :: go x rest

/-- Stage 3 result `installed_packages` (src/main.rs lines 352-363):
collected names, sorted (Rust's stable sort, modelled by insertion sort)
and deduplicated. -/
def feedbackPending (packages : List NVR) (relevant : List Update) :
    Option (List Str) :=
  match installedUpdates packages relevant with
  | none => none
  | some installed =>
    match feedbackNames installed with
    | none => none
    | some names =>
      some (dedupBy (fun a b => decide (a = b))
        (names.insertionSort (· ≤ ·)))

/-- Stage 4 inner loop body (src/main.rs lines 405-436): per parsed build
NVR, skip it if exactly installed; otherwise push the update when some
build's name is installed (name-only) and some build's name is an
interest.  Both flags range over all builds of the record. -/
def interestingFrom (packages : List NVR) (interests : List Str)
    (u : Update) (pending_nvrs : List NVR) : List Update :=
  pending_nvrs.filterMap (fun nvr =>
    if nvr ∈ packages then none
    else
      let is_installed := pending_nvrs.any (fun p =>
        packages.any (fun pkg => decide (p.n = pkg.n)))
      let is_interesting := pending_nvrs.any (fun p =>
        interests.any (fun i => decide (i = p.n)))
      if is_installed && is_interesting then some u else none)

/-- Stage 4 accumulation (src/main.rs lines 396-437): concatenation of
the per-update pushes, aborting on any NVR parse failure. -/
def pendingUpdatesRaw (packages : List NVR) (interests : List Str)
    (relevant : List Update) : Option (List Update) :=
  match optMap (fun u =>
    match updateNVRs u with
    | none => none
    | some pending_nvrs => some (interestingFrom packages interests u pending_nvrs))
    relevant with
  | none => none
  | some ls => some ls.flatten

/-- Stage 4 result `pending_updates` (src/main.rs lines 439-441): sorted
by alias (stable) and deduplicated by alias. -/
def pendingUpdates (packages : List NVR) (interests : List Str)
    (relevant : List Update) : Option (List Update) :=
  match pendingUpdatesRaw packages interests relevant with
  | none => none
  | some raw =>
    some (dedupBy (fun a b => decide (a.«alias» = b.«alias»))
      (raw.insertionSort (fun a b => a.«alias» ≤ b.«alias»)))

theorem splitLast_eq_none {sep : Char} {s : Str} : splitLast sep s = none ↔ sep ∉ s := by
  induction s with
  | nil => simp [splitLast]
  | cons c rest ih =>
    rw [splitLast]
    cases h : splitLast sep rest with
    | some p =>
      have hmem : sep ∈ rest := by
        by_contra hn
        rw [ih.mpr hn] at h
        cases h
      simp [hmem]
    | none =>
      have hrest : sep ∉ rest := ih.mp h
      by_cases hc : c = sep
      · subst hc
        simp
      · simp [hc, hrest, Ne.symm hc]

theorem splitLast_eq_some {sep : Char} : ∀ {s pre post : Str},
    splitLast sep s = some (pre, post) → s = pre ++ sep :: post ∧ sep ∉ post := by
  intro s
  induction s with
  | nil => intro pre post h; cases h
  | cons c rest ih =>
    intro pre post h
    rw [splitLast] at h
    cases hr : splitLast sep rest with
    | some p =>
      obtain ⟨p1, p2⟩ := p
      rw [hr] at h
      simp only [Option.some.injEq, Prod.mk.injEq] at h
      obtain ⟨h1, h2⟩ := h
      obtain ⟨hs, hpost⟩ := ih hr
      subst h1; subst h2
      exact ⟨by simp [hs], hpost⟩
    | none =>
      rw [hr] at h
      by_cases hc : c = sep
      · rw [if_pos hc] at h
        simp only [Option.some.injEq, Prod.mk.injEq] at h
        obtain ⟨h1, h2⟩ := h
        subst h1; subst h2
        exact ⟨by simp [hc], splitLast_eq_none.mp hr⟩
      · rw [if_neg hc] at h
        cases h

theorem splitLast_append {sep : Char} {post : Str} (hpost : sep ∉ post) :
    ∀ (pre : Str), splitLast sep (pre ++ sep :: post) = some (pre, post) := by
  intro pre
  induction pre with
  | nil =>
    rw [List.nil_append, splitLast, splitLast_eq_none.mpr hpost]
    simp
  | cons c pre ih =>
    rw [List.cons_append, splitLast, ih]

theorem splitFirst_eq_none {sep : Char} {s : Str} : splitFirst sep s = none ↔ sep ∉ s := by
  induction s with
  | nil => simp [splitFirst]
  | cons c rest ih =>
    rw [splitFirst]
    by_cases hc : c = sep
    · subst hc
      simp
    · cases h : splitFirst sep rest with
      | some p =>
        have hmem : sep ∈ rest := by
          by_contra hn
          rw [ih.mpr hn] at h
          cases h
        simp [hc, hmem]
      | none =>
        simp [hc, ih.mp h, Ne.symm hc]

theorem splitFirst_append {sep : Char} {post : Str} :
    ∀ (pre : Str), sep ∉ pre → splitFirst sep (pre ++ sep :: post) = some (pre, post)
  | [], _ => by simp [splitFirst]
  | c :: pre, hpre => by
    have hc : ¬ c = sep := fun h => hpre (by simp [h])
    rw [List.cons_append, splitFirst, if_neg hc,
      splitFirst_append pre (fun h => hpre (List.mem_cons_of_mem c h))]

theorem splitEV_no_colon {ev : Str} (h : ':' ∉ ev) : splitEV ev = (['0'], ev) := by
  rw [splitEV, splitFirst_eq_none.mpr h]

theorem splitEV_single {e v : Str} (he : ':' ∉ e) (hv : ':' ∉ v) :
    splitEV (e ++ ':' :: v) = (e, v) := by
  simp [splitEV, splitFirst_append e he, splitFirst_eq_none.mpr hv]

theorem splitEV_multi {e v rest : Str} (he : ':' ∉ e) (hv : ':' ∉ v) :
    splitEV (e ++ ':' :: v ++ ':' :: rest) = (e, v) := by
  simp [splitEV, splitFirst_append e he, splitFirst_append v hv]

theorem parse_nevra_append {n ev r a : Str} (hev : '-' ∉ ev) (hr : '-' ∉ r) (ha : '.' ∉ a) :
    parse_nevra (n ++ '-' :: ev ++ '-' :: r ++ '.' :: a) =
      some (n, (splitEV ev).1, (splitEV ev).2, r, a) := by
  have e1 : splitLast '.' (n ++ '-' :: ev ++ '-' :: r ++ '.' :: a)
      = some (n ++ '-' :: ev ++ '-' :: r, a) := by
    rw [show n ++ '-' :: ev ++ '-' :: r ++ '.' :: a
        = (n ++ '-' :: ev ++ '-' :: r) ++ '.' :: a by simp]
    exact splitLast_append ha _
  have e2 : splitLast '-' (n ++ '-' :: ev ++ '-' :: r) = some (n ++ '-' :: ev, r) := by
    rw [show n ++ '-' :: ev ++ '-' :: r = (n ++ '-' :: ev) ++ '-' :: r by simp]
    exact splitLast_append hr _
  have e3 : splitLast '-' (n ++ '-' :: ev) = some (n, ev) := splitLast_append hev n
  rw [parse_nevra]
  simp only [e1, Option.bind_eq_bind, Option.some_bind, e2, e3]

/-- C2: the claim asserts that when the middle epoch-or-version part
contains `:`, the parser keeps *everything* after the first `:` as the
version.  The code instead collects all `:`-separated fields and keeps
only the second, so a version is truncated at a second `:`.  This theorem
is the amended statement: no colon gives epoch `"0"` and the whole middle
part as version; with colons, epoch is the text before the first `:` and
version the text between the first and second `:` (anything after a
second `:` is discarded). -/
theorem c2_epoch_version_handling
    (n ev e v rest r a : Str) (hr : '-' ∉ r) (ha : '.' ∉ a) :
    (':' ∉ ev → '-' ∉ ev →
      parse_nevra (n ++ '-' :: ev ++ '-' :: r ++ '.' :: a) = some (n, ['0'], ev, r, a)) ∧
    (':' ∉ e → ':' ∉ v → '-' ∉ e → '-' ∉ v →
      parse_nevra (n ++ '-' :: (e ++ ':' :: v) ++ '-' :: r ++ '.' :: a)
        = some (n, e, v, r, a)) ∧
    (':' ∉ e → ':' ∉ v → '-' ∉ e → '-' ∉ v → '-' ∉ rest →
      parse_nevra (n ++ '-' :: (e ++ ':' :: v ++ ':' :: rest) ++ '-' :: r ++ '.' :: a)
        = some (n, e, v, r, a)) := by
  have hdc : ('-' : Char) ≠ ':' := by decide
  refine ⟨fun h1 h2 => ?_, fun h1 h2 h3 h4 => ?_, fun h1 h2 h3 h4 h5 => ?_⟩
  · rw [parse_nevra_append h2 hr ha, splitEV_no_colon h1]
  · have hev : '-' ∉ e ++ ':' :: v := by simp [h3, h4, hdc]
    rw [parse_nevra_append hev hr ha, splitEV_single h1 h2]
  · have hev : '-' ∉ e ++ ':' :: v ++ ':' :: rest := by simp [h3, h4, h5, hdc]
    rw [parse_nevra_append hev hr ha, splitEV_multi h1 h2]

/-- C2 witness: the amended theorem applied to concrete inputs
(`pkg-1.0-1.fc40.noarch` without epoch, `n-1:2:3-r.a` with two colons). -/
theorem c2_epoch_version_handling_witness :
    parse_nevra ("pkg".toList ++ '-' :: ("1.0".toList) ++ '-' :: ("1.fc40".toList)
        ++ '.' :: ("noarch".toList))
      = some ("pkg".toList, ['0'], ("1.0".toList), ("1.fc40".toList), ("noarch".toList)) ∧
    parse_nevra ("n".toList ++ '-' :: ("1".toList ++ ':' :: ("2".toList) ++ ':' :: ("3".toList))
        ++ '-' :: ("r".toList) ++ '.' :: ("a".toList))
      = some ("n".toList, ("1".toList), ("2".toList), ("r".toList), ("a".toList)) :=
  ⟨(c2_epoch_version_handling ("pkg".toList) ("1.0".toList) [] [] [] ("1.fc40".toList)
      ("noarch".toList) (by decide) (by decide)).1 (by decide) (by decide),
   (c2_epoch_version_handling ("n".toList) [] ("1".toList) ("2".toList) ("3".toList) ("r".toList)
      ("a".toList) (by decide) (by decide)).2.2 (by decide) (by decide) (by decide)
      (by decide) (by decide)⟩

/-- C2 counterexample: on `n-1:2:3-r.a` the middle part is `1:2:3`; the
claim predicts version `2:3` (everything after the first `:`), but the
code returns version `2`. -/
theorem c2_counterexample :
    parse_nevra ("n-1:2:3-r.a".toList)
      = some ("n".toList, ("1".toList), ("2".toList), ("r".toList), ("a".toList)) ∧
    parse_nevra ("n-1:2:3-r.a".toList)
      ≠ some ("n".toList, ("1".toList), ("2:3".toList), ("r".toList), ("a".toList)) := by
  refine ⟨by decide, by decide⟩

/-- C3 counterexample: `parse_nvr` succeeds on `"--"` returning empty
name, version and release, refuting the non-emptiness invariant. -/
theorem c3_counterexample :
    parse_nvr ("--".toList) = some ([], [], []) ∧
    ¬ (∀ n v r, parse_nvr ("--".toList) = some (n, v, r) → n ≠ [] ∧ v ≠ [] ∧ r ≠ []) := by
  refine ⟨by decide, fun h => ?_⟩
  exact (h [] [] [] (by decide)).1 rfl

/-- C3 (amended): success of `parse_nvr` does not make the fields
non-empty; what holds is that the parse is exact: the three fields
joined by `-` reconstruct the input. -/
theorem c3_parse_reconstruction {s n v r : Str} (h : parse_nvr s = some (n, v, r)) :
    s = n ++ '-' :: v ++ '-' :: r := by
  rw [parse_nvr] at h
  cases h1 : splitLast '-' s with
  | none => rw [h1] at h; simp at h
  | some p =>
    obtain ⟨nv, r'⟩ := p
    rw [h1] at h
    simp only [Option.bind_eq_bind, Option.some_bind] at h
    cases h2 : splitLast '-' nv with
    | none => simp [h2] at h
    | some q =>
      obtain ⟨n', v'⟩ := q
      rw [h2] at h
      simp only [Option.some_bind, Option.some.injEq, Prod.mk.injEq] at h
      obtain ⟨hn, hv, hr⟩ := h
      obtain ⟨hs, -⟩ := splitLast_eq_some h1
      obtain ⟨hnv, -⟩ := splitLast_eq_some h2
      subst hn; subst hv; subst hr
      rw [hs, hnv]

/-- C3 witness: reconstruction at the concrete success `a-1-2`. -/
theorem c3_parse_reconstruction_witness :
    ("a-1-2".toList) = ("a".toList) ++ '-' :: ("1".toList) ++ '-' :: ("2".toList) :=
  c3_parse_reconstruction (by decide)

/-- C4: every well-formed `name-epoch:version-release.arch.ext` filename
(hyphens allowed inside the name; the other fields free of the delimiters
that bound them) parses back to exactly the original five fields. -/
theorem c4_filename_roundtrip (name e v r a x : Str)
    (he1 : ':' ∉ e) (hv1 : ':' ∉ v) (he2 : '-' ∉ e) (hv2 : '-' ∉ v)
    (hr : '-' ∉ r) (ha : '.' ∉ a) (hx : '.' ∉ x) :
    parse_filename (name ++ '-' :: (e ++ ':' :: v) ++ '-' :: r ++ '.' :: a ++ '.' :: x)
      = some (name, e, v, r, a) := by
  have hdc : ('-' : Char) ≠ ':' := by decide
  have h1 : name ++ '-' :: (e ++ ':' :: v) ++ '-' :: r ++ '.' :: a ++ '.' :: x
      = (name ++ '-' :: (e ++ ':' :: v) ++ '-' :: r ++ '.' :: a) ++ '.' :: x := by simp
  rw [parse_filename, h1, splitLast_append hx _]
  show parse_nevra (name ++ '-' :: (e ++ ':' :: v) ++ '-' :: r ++ '.' :: a)
      = some (name, e, v, r, a)
  have hev : '-' ∉ e ++ ':' :: v := by simp [he2, hv2, hdc]
  rw [parse_nevra_append hev hr ha, splitEV_single he1 hv1]

/-- C4 witness: the round trip at `foo-bar-1:2.3-4.fc40.x86_64.rpm`. -/
theorem c4_filename_roundtrip_witness :
    parse_filename ("foo-bar-1:2.3-4.fc40.x86_64.rpm".toList)
      = some ("foo-bar".toList, ("1".toList), ("2.3".toList), ("4.fc40".toList), ("x86_64".toList)) := by
  have h := c4_filename_roundtrip ("foo-bar".toList) ("1".toList) ("2.3".toList) ("4.fc40".toList)
    ("x86_64".toList) ("rpm".toList) (by decide) (by decide) (by decide) (by decide)
    (by decide) (by decide) (by decide)
  have heq : ("foo-bar-1:2.3-4.fc40.x86_64.rpm".toList)
      = ("foo-bar".toList) ++ '-' :: ("1".toList ++ ':' :: ("2.3".toList))
        ++ '-' :: ("4.fc40".toList) ++ '.' :: ("x86_64".toList) ++ '.' :: ("rpm".toList) := by
    decide
  rw [heq]
  exact h

/-- C9: the filename parser fails on strings without `.`, on strings
whose NEVR portion (after removing extension and architecture) holds
fewer than two `-`, and in particular on `nohyphen.rpm`. -/
theorem c9_malformed_rejected :
    (∀ s : Str, '.' ∉ s → parse_filename s = none) ∧
    (∀ s nevra x nevr a : Str,
      splitLast '.' s = some (nevra, x) → splitLast '.' nevra = some (nevr, a) →
      nevr.count '-' < 2 → parse_filename s = none) ∧
    parse_filename ("nohyphen.rpm".toList) = none := by
  refine ⟨?_, ?_, by decide⟩
  · intro s hs
    simp [parse_filename, splitLast_eq_none.mpr hs]
  · intro s nevra x nevr a h1 h2 hc
    simp only [parse_filename, h1, Option.bind_eq_bind]
    show parse_nevra nevra = none
    simp only [parse_nevra, h2, Option.bind_eq_bind]
    cases h3 : splitLast '-' nevr with
    | none => simp [h3]
    | some p =>
      obtain ⟨nev, r⟩ := p
      obtain ⟨hs', -⟩ := splitLast_eq_some h3
      have hcount : nevr.count '-' = nev.count '-' + (r.count '-' + 1) := by
        rw [hs']
        simp [List.count_append, List.count_cons]
      have h0 : nev.count '-' = 0 := by omega
      have hnm : '-' ∉ nev := List.count_eq_zero.mp h0
      simp [h3, splitLast_eq_none.mpr hnm]

/-- C9 witness: failure on a dotless string and on `a-b.x.y`, whose NEVR
portion `a-b` has a single `-`. -/
theorem c9_malformed_rejected_witness :
    parse_filename ("nodots".toList) = none ∧ parse_filename ("a-b.x.y".toList) = none :=
  ⟨c9_malformed_rejected.1 ("nodots".toList) (by decide),
   c9_malformed_rejected.2.1 ("a-b.x.y".toList) ("a-b.x".toList) ("y".toList) ("a-b".toList)
     ("x".toList) (by decide) (by decide) (by decide)⟩

theorem optMap_mem {f : α → Option β} : ∀ {l : List α} {l' : List β},
    optMap f l = some l' → ∀ b ∈ l', ∃ a ∈ l, f a = some b := by
  intro l
  induction l with
  | nil =>
    intro l' h b hb
    rw [optMap] at h
    injection h with h
    subst h
    simp at hb
  | cons a rest ih =>
    intro l' h b hb
    rw [optMap] at h
    cases hf : f a with
    | none => rw [hf] at h; simp at h
    | some fb =>
      rw [hf] at h
      simp only [Option.bind_eq_bind, Option.some_bind] at h
      cases ho : optMap f rest with
      | none => rw [ho] at h; simp at h
      | some bs =>
        rw [ho] at h
        simp only [Option.some_bind, Option.some.injEq] at h
        subst h
        rcases List.mem_cons.mp hb with rfl | hb'
        · exact ⟨a, List.mem_cons_self a rest, hf⟩
        · obtain ⟨a', ha', hfa'⟩ := ih ho b hb'
          exact ⟨a', List.mem_cons_of_mem a ha', hfa'⟩

/-- C8: two `NVR` identifiers match exactly when name, version and
release all agree, and the projection that builds inventory entries
discards epoch and architecture, so identifiers differing only there are
equal for lookup. -/
theorem c8_matching (p q : NVR) :
    (p = q ↔ p.n = q.n ∧ p.v = q.v ∧ p.r = q.r) ∧
    (∀ n e v r a e' a' : Str, toNVR (n, e, v, r, a) = toNVR (n, e', v, r, a')) := by
  constructor
  · constructor
    · intro h
      subst h
      exact ⟨rfl, rfl, rfl⟩
    · intro ⟨h1, h2, h3⟩
      cases p
      cases q
      simp_all
  · intro n e v r a e' a'
    rfl

/-- C8 witness: identifiers parsed with different epochs and
architectures produce the same inventory entry. -/
theorem c8_matching_witness :
    toNVR ("a".toList, ("0".toList), ("1".toList), ("1".toList), ("x86_64".toList))
      = toNVR ("a".toList, ("7".toList), ("1".toList), ("1".toList), ("i686".toList)) :=
  (c8_matching ⟨[], [], []⟩ ⟨[], [], []⟩).2 ("a".toList) ("0".toList) ("1".toList) ("1".toList)
    ("x86_64".toList) ("7".toList) ("i686".toList)

/-- C10: on empty (or whitespace-only) raw package-listing output,
trimming then splitting yields the single empty line, whose parse fails,
so the inventory builder aborts instead of returning an empty inventory. -/
theorem c10_empty_listing_aborts (raw : Str) (h : trimChars raw = []) :
    buildInventory raw = none := by
  simp only [buildInventory, h]
  decide

/-- C10 witness: the empty raw listing and a whitespace-only one. -/
theorem c10_empty_listing_aborts_witness :
    buildInventory ("".toList) = none ∧ buildInventory (" \n ".toList) = none :=
  ⟨c10_empty_listing_aborts ("".toList) (by decide),
   c10_empty_listing_aborts (" \n ".toList) (by decide)⟩

theorem dedupBy_go_sublist (eq : α → α → Bool) :
    ∀ (l : List α) (prev : α), List.Sublist (dedupBy.go eq prev l) l := by
  intro l
  induction l with
  | nil => intro prev; simp [dedupBy.go]
  | cons x rest ih =>
    intro prev
    rw [dedupBy.go]
    by_cases h : eq x prev = true
    · rw [if_pos h]
      exact (ih prev).trans (List.sublist_cons_self x rest)
    · rw [if_neg h]
      exact (ih x).cons₂ x

theorem dedupBy_sublist (eq : α → α → Bool) : ∀ (l : List α), List.Sublist (dedupBy eq l) l
  | [] => by simp [dedupBy]
  | a :: rest => by
    rw [dedupBy]
    exact (dedupBy_go_sublist eq rest a).cons₂ a

theorem dedupBy_go_key [LinearOrder β] (eq : α → α → Bool) (k : α → β)
    (heq : ∀ a b, eq a b = true ↔ k a = k b) :
    ∀ (l : List α) (prev : α),
      l.Pairwise (fun a b => k a ≤ k b) → (∀ x ∈ l, k prev ≤ k x) →
      (dedupBy.go eq prev l).Pairwise (fun a b => k a < k b) ∧
      ∀ y ∈ dedupBy.go eq prev l, k prev < k y := by
  intro l
  induction l with
  | nil => intro prev _ _; simp [dedupBy.go]
  | cons x rest ih =>
    intro prev hp hge
    rw [dedupBy.go]
    obtain ⟨hx, hrest⟩ := List.pairwise_cons.mp hp
    by_cases h : k x = k prev
    · rw [if_pos ((heq x prev).mpr h)]
      refine ih prev hrest (fun z hz => ?_)
      exact h ▸ hx z hz
    · rw [if_neg (fun he => h ((heq x prev).mp he))]
      have hpx : k prev < k x :=
        lt_of_le_of_ne (hge x (List.mem_cons_self x rest)) (fun e => h e.symm)
      obtain ⟨hpair, hmem⟩ := ih x hrest hx
      refine ⟨List.pairwise_cons.mpr ⟨hmem, hpair⟩, fun y hy => ?_⟩
      rcases List.mem_cons.mp hy with rfl | hy'
      · exact hpx
      · exact hpx.trans (hmem y hy')

theorem dedupBy_key_pairwise [LinearOrder β] (eq : α → α → Bool) (k : α → β)
    (heq : ∀ a b, eq a b = true ↔ k a = k b) :
    ∀ (l : List α), l.Pairwise (fun a b => k a ≤ k b) →
      (dedupBy eq l).Pairwise (fun a b => k a < k b)
  | [], _ => by simp [dedupBy]
  | a :: rest, hp => by
    rw [dedupBy]
    obtain ⟨ha, hrest⟩ := List.pairwise_cons.mp hp
    obtain ⟨hpair, hmem⟩ := dedupBy_go_key eq k heq rest a hrest ha
    exact List.pairwise_cons.mpr ⟨hmem, hpair⟩

theorem installedUpdates_subset {packages : List NVR} {relevant : List Update}
    {l : List Update} (h : installedUpdates packages relevant = some l) :
    ∀ u ∈ l, u ∈ relevant := by
  intro u hu
  rw [installedUpdates] at h
  split at h
  · exact absurd h (by simp)
  · next ls heq =>
    injection h with h
    subst h
    obtain ⟨sub, hsub, husub⟩ := List.mem_flatten.mp hu
    obtain ⟨a, ha, hfa⟩ := optMap_mem heq sub hsub
    cases hn : updateNVRs a with
    | none => rw [hn] at hfa; simp at hfa
    | some nvrs =>
      rw [hn] at hfa
      simp only [Option.some.injEq] at hfa
      subst hfa
      obtain ⟨p, hp, hpu⟩ := List.mem_map.mp husub
      exact hpu ▸ ha

theorem pendingUpdatesRaw_spec {packages : List NVR} {interests : List Str}
    {relevant : List Update} {raw : List Update}
    (h : pendingUpdatesRaw packages interests relevant = some raw) :
    ∀ u ∈ raw, u ∈ relevant ∧ ∃ nvrs, updateNVRs u = some nvrs ∧
      (∃ p ∈ nvrs, p ∉ packages) ∧
      (∃ p ∈ nvrs, ∃ pkg ∈ packages, p.n = pkg.n) ∧
      (∃ p ∈ nvrs, p.n ∈ interests) := by
  intro u hu
  rw [pendingUpdatesRaw] at h
  split at h
  · exact absurd h (by simp)
  · next ls heq =>
    injection h with h
    subst h
    obtain ⟨sub, hsub, husub⟩ := List.mem_flatten.mp hu
    obtain ⟨a, ha, hfa⟩ := optMap_mem heq sub hsub
    cases hn : updateNVRs a with
    | none => rw [hn] at hfa; simp at hfa
    | some nvrs =>
      rw [hn] at hfa
      simp only [Option.some.injEq] at hfa
      subst hfa
      rw [interestingFrom] at husub
      obtain ⟨nvr, hnvr, hg⟩ := List.mem_filterMap.mp husub
      dsimp only at hg
      by_cases hin : nvr ∈ packages
      · rw [if_pos hin] at hg
        cases hg
      · rw [if_neg hin] at hg
        by_cases hflag : (nvrs.any (fun p => packages.any (fun pkg => decide (p.n = pkg.n)))
            && nvrs.any (fun p => interests.any (fun i => decide (i = p.n)))) = true
        · rw [if_pos hflag] at hg
          injection hg with hg
          subst hg
          obtain ⟨hinst, hint⟩ := Bool.and_eq_true_iff.mp hflag
          refine ⟨ha, nvrs, hn, ⟨nvr, hnvr, hin⟩, ?_, ?_⟩
          · simpa using hinst
          · have h' : ∃ p ∈ nvrs, ∃ i ∈ interests, i = p.n := by simpa using hint
            obtain ⟨p, hp, i, hi, hip⟩ := h'
            exact ⟨p, hp, hip ▸ hi⟩
        · rw [if_neg hflag] at hg
          cases hg

theorem pendingUpdates_split {packages : List NVR} {interests : List Str}
    {relevant : List Update} {l : List Update}
    (h : pendingUpdates packages interests relevant = some l) :
    ∃ raw, pendingUpdatesRaw packages interests relevant = some raw ∧
      l = dedupBy (fun a b => decide (a.«alias» = b.«alias»))
        (raw.insertionSort (fun a b => a.«alias» ≤ b.«alias»)) := by
  rw [pendingUpdates] at h
  split at h
  · exact absurd h (by simp)
  · next raw heq =>
    injection h with h
    exact ⟨raw, heq, h.symm⟩

theorem pendingUpdates_subset {packages : List NVR} {interests : List Str}
    {relevant : List Update} {l : List Update}
    (h : pendingUpdates packages interests relevant = some l) :
    ∀ u ∈ l, u ∈ relevant := by
  intro u hu
  obtain ⟨raw, hraw, rfl⟩ := pendingUpdates_split h
  have h1 := (dedupBy_sublist _ _).subset hu
  have h2 := (List.mem_insertionSort _).mp h1
  exact (pendingUpdatesRaw_spec hraw u h2).1

/-- C6: an update authored by the configured user is dropped by stage 1,
is absent from `relevant_updates`, and therefore appears neither among
the stage-3 installed updates (the source of `feedback_pending`) nor in
`interesting_pending`, even if its builds match the inventory exactly. -/
theorem c6_author_filter (username : Str) (updates : List Update)
    (packages : List NVR) (interests : List Str) (u : Update)
    (h : u.user.name = username) :
    u ∉ authorFiltered username updates ∧
    u ∉ relevantUpdates username updates ∧
    (∀ l, installedUpdates packages (relevantUpdates username updates) = some l →
      u ∉ l) ∧
    (∀ l, pendingUpdates packages interests (relevantUpdates username updates) = some l →
      u ∉ l) := by
  have h1 : u ∉ authorFiltered username updates := by
    intro hmem
    have := (List.mem_filter.mp hmem).2
    simp only [decide_eq_true_eq] at this
    exact this h
  have h2 : u ∉ relevantUpdates username updates := by
    intro hmem
    exact h1 (List.mem_filter.mp hmem).1
  refine ⟨h1, h2, fun l hl hmem => ?_, fun l hl hmem => ?_⟩
  · exact h2 (installedUpdates_subset hl u hmem)
  · exact h2 (pendingUpdates_subset hl u hmem)

/-- C6 witness: an update authored by `alice` whose build matches the
inventory exactly is excluded everywhere. -/
theorem c6_author_filter_witness :
    (⟨("UA".toList), ⟨("alice".toList)⟩, none, [⟨("a-1-1".toList)⟩]⟩ : Update) ∉
      relevantUpdates ("alice".toList)
        [⟨("UA".toList), ⟨("alice".toList)⟩, none, [⟨("a-1-1".toList)⟩]⟩,
         ⟨("UB".toList), ⟨("bob".toList)⟩, none, [⟨("a-1-1".toList)⟩, ⟨("b-2-2".toList)⟩]⟩] ∧
    (⟨("UA".toList), ⟨("alice".toList)⟩, none, [⟨("a-1-1".toList)⟩]⟩ : Update) ∉
      [(⟨("UB".toList), ⟨("bob".toList)⟩, none, [⟨("a-1-1".toList)⟩, ⟨("b-2-2".toList)⟩]⟩ : Update)] := by
  have h := c6_author_filter ("alice".toList)
    [⟨("UA".toList), ⟨("alice".toList)⟩, none, [⟨("a-1-1".toList)⟩]⟩,
     ⟨("UB".toList), ⟨("bob".toList)⟩, none, [⟨("a-1-1".toList)⟩, ⟨("b-2-2".toList)⟩]⟩]
    [⟨("a".toList), ("1".toList), ("1".toList)⟩] [("b".toList)]
    ⟨("UA".toList), ⟨("alice".toList)⟩, none, [⟨("a-1-1".toList)⟩]⟩ rfl
  exact ⟨h.2.1, h.2.2.1 _ (by decide)⟩

/-- C7: among authorship-filtered records, one with a comment by the
configured user is excluded from `relevant_updates`, and one with no
comments at all always passes through. -/
theorem c7_commented_filter (username : Str) (updates : List Update) (u : Update)
    (hu : u ∈ authorFiltered username updates) :
    ((∃ cs, u.comments = some cs ∧ ∃ c ∈ cs, c.user.name = username) →
      u ∉ relevantUpdates username updates) ∧
    (u.comments = none → u ∈ relevantUpdates username updates) := by
  constructor
  · rintro ⟨cs, hcs, c, hc, hname⟩ hmem
    have hpass := (List.mem_filter.mp hmem).2
    simp only [notCommented, hcs, Bool.not_eq_true', List.any_eq_false,
      decide_eq_true_eq] at hpass
    exact hpass c hc hname
  · intro hnone
    refine List.mem_filter.mpr ⟨hu, ?_⟩
    simp [notCommented, hnone]

/-- C7 witness: a record commented on by `alice` is dropped, a
comment-free record passes, both authored by someone else. -/
theorem c7_commented_filter_witness :
    (⟨("UC".toList), ⟨("bob".toList)⟩, some [⟨⟨("alice".toList)⟩⟩], [⟨("a-1-1".toList)⟩]⟩ : Update) ∉
      relevantUpdates ("alice".toList)
        [⟨("UC".toList), ⟨("bob".toList)⟩, some [⟨⟨("alice".toList)⟩⟩], [⟨("a-1-1".toList)⟩]⟩,
         ⟨("UD".toList), ⟨("bob".toList)⟩, none, [⟨("b-2-2".toList)⟩]⟩] ∧
    (⟨("UD".toList), ⟨("bob".toList)⟩, none, [⟨("b-2-2".toList)⟩]⟩ : Update) ∈
      relevantUpdates ("alice".toList)
        [⟨("UC".toList), ⟨("bob".toList)⟩, some [⟨⟨("alice".toList)⟩⟩], [⟨("a-1-1".toList)⟩]⟩,
         ⟨("UD".toList), ⟨("bob".toList)⟩, none, [⟨("b-2-2".toList)⟩]⟩] := by
  constructor
  · exact (c7_commented_filter ("alice".toList) _ _ (by decide)).1
      ⟨[⟨⟨("alice".toList)⟩⟩], rfl, ⟨⟨("alice".toList)⟩⟩, by decide, rfl⟩
  · exact (c7_commented_filter ("alice".toList) _ _ (by decide)).2 rfl

/-- C5: the `feedback_pending` name list is sorted ascending and free of
duplicates, whatever the relevant updates and inventory are. -/
theorem c5_feedback_sorted_nodup (packages : List NVR) (relevant : List Update)
    (l : List Str) (h : feedbackPending packages relevant = some l) :
    l.Sorted (· ≤ ·) ∧ l.Nodup := by
  rw [feedbackPending] at h
  split at h
  · exact absurd h (by simp)
  · next installed heq1 =>
    split at h
    · exact absurd h (by simp)
    · next names heq2 =>
      injection h with h
      subst h
      have hsorted : (names.insertionSort (· ≤ ·)).Pairwise (fun a b : Str => a ≤ b) :=
        List.sorted_insertionSort _ names
      have hp := dedupBy_key_pairwise (fun a b => decide (a = b)) (fun s : Str => s)
        (fun a b => by simp) _ hsorted
      exact ⟨hp.imp (fun h => le_of_lt h), hp.imp (fun h => ne_of_lt h)⟩

/-- C5 witness: two updates sharing the package `a` produce the sorted,
duplicate-free list `[a, b]`. -/
theorem c5_feedback_sorted_nodup_witness :
    ([("a".toList), ("b".toList)] : List Str).Sorted (· ≤ ·) ∧
    ([("a".toList), ("b".toList)] : List Str).Nodup :=
  c5_feedback_sorted_nodup [⟨("a".toList), ("1".toList), ("1".toList)⟩]
    [⟨("U1".toList), ⟨("bob".toList)⟩, none, [⟨("a-1-1".toList)⟩, ⟨("b-2-2".toList)⟩]⟩,
     ⟨("U2".toList), ⟨("eve".toList)⟩, none, [⟨("a-1-1".toList)⟩]⟩]
    [("a".toList), ("b".toList)] (by decide)

/-- C1 (amended): a record enters `interesting_pending` only if *some*
build's triple is not exactly installed, *some* build (possibly a
different one) shares a name with the local inventory, and *some* build
(again possibly different) has its name in `interests`; the result is
sorted by alias with pairwise-distinct aliases.  The original claim's
single-build conjunction and its "no build exactly installed" condition
are both refuted by `c1_counterexample`. -/
theorem c1_interesting_pending (packages : List NVR) (interests : List Str)
    (relevant : List Update) (l : List Update)
    (h : pendingUpdates packages interests relevant = some l) :
    ((l.map Update.«alias»).Sorted (· ≤ ·) ∧ (l.map Update.«alias»).Nodup) ∧
    ∀ u ∈ l, ∃ nvrs, updateNVRs u = some nvrs ∧
      (∃ p ∈ nvrs, p ∉ packages) ∧
      (∃ p ∈ nvrs, ∃ pkg ∈ packages, p.n = pkg.n) ∧
      (∃ p ∈ nvrs, p.n ∈ interests) := by
  obtain ⟨raw, hraw, rfl⟩ := pendingUpdates_split h
  constructor
  · haveI : IsTotal Update (fun a b => a.«alias» ≤ b.«alias») :=
      ⟨fun a b => le_total _ _⟩
    haveI : IsTrans Update (fun a b => a.«alias» ≤ b.«alias») :=
      ⟨fun a b c h1 h2 => le_trans h1 h2⟩
    have hsorted : (raw.insertionSort (fun a b => a.«alias» ≤ b.«alias»)).Pairwise
        (fun a b => a.«alias» ≤ b.«alias») := List.sorted_insertionSort _ raw
    have hp := dedupBy_key_pairwise (fun a b => decide (a.«alias» = b.«alias»))
      (fun u : Update => u.«alias») (fun a b => by simp) _ hsorted
    exact ⟨List.pairwise_map.mpr (hp.imp fun h => le_of_lt h),
           List.pairwise_map.mpr (hp.imp fun h => ne_of_lt h)⟩
  · intro u hu
    have h1 := (dedupBy_sublist _ _).subset hu
    have h2 := (List.mem_insertionSort _).mp h1
    exact (pendingUpdatesRaw_spec hraw u h2).2

/-- C1 counterexample.  Scenario 1: inventory `{(a,1,1)}`, interests
`{b}`, one update with builds `a-2-1` and `b-9-9`.  The update is
included although no single build both shares a name with the inventory
and is an interest (`a` is installed but not interesting, `b` is
interesting but not installed).  Scenario 2: inventory `{(a,1,1)}`,
interests `{a}`, builds `a-1-1` (exactly installed) and `a-2-1`: the
update is included although one of its builds' exact triple is
installed. -/
theorem c1_counterexample :
    (pendingUpdates [⟨("a".toList), ("1".toList), ("1".toList)⟩] [("b".toList)]
        [⟨("U1".toList), ⟨("carol".toList)⟩, none, [⟨("a-2-1".toList)⟩, ⟨("b-9-9".toList)⟩]⟩]
      = some [⟨("U1".toList), ⟨("carol".toList)⟩, none, [⟨("a-2-1".toList)⟩, ⟨("b-9-9".toList)⟩]⟩] ∧
     updateNVRs ⟨("U1".toList), ⟨("carol".toList)⟩, none, [⟨("a-2-1".toList)⟩, ⟨("b-9-9".toList)⟩]⟩
      = some [⟨("a".toList), ("2".toList), ("1".toList)⟩, ⟨("b".toList), ("9".toList), ("9".toList)⟩] ∧
     ¬ ∃ p ∈ [(⟨("a".toList), ("2".toList), ("1".toList)⟩ : NVR),
              ⟨("b".toList), ("9".toList), ("9".toList)⟩],
        (∃ pkg ∈ [(⟨("a".toList), ("1".toList), ("1".toList)⟩ : NVR)], p.n = pkg.n) ∧
        p.n ∈ [("b".toList)]) ∧
    (pendingUpdates [⟨("a".toList), ("1".toList), ("1".toList)⟩] [("a".toList)]
        [⟨("U2".toList), ⟨("carol".toList)⟩, none, [⟨("a-1-1".toList)⟩, ⟨("a-2-1".toList)⟩]⟩]
      = some [⟨("U2".toList), ⟨("carol".toList)⟩, none, [⟨("a-1-1".toList)⟩, ⟨("a-2-1".toList)⟩]⟩] ∧
     updateNVRs ⟨("U2".toList), ⟨("carol".toList)⟩, none, [⟨("a-1-1".toList)⟩, ⟨("a-2-1".toList)⟩]⟩
      = some [⟨("a".toList), ("1".toList), ("1".toList)⟩, ⟨("a".toList), ("2".toList), ("1".toList)⟩] ∧
     (⟨("a".toList), ("1".toList), ("1".toList)⟩ : NVR)
        ∈ [(⟨("a".toList), ("1".toList), ("1".toList)⟩ : NVR)]) := by
  refine ⟨⟨by decide, by decide, by decide⟩, by decide, by decide, by decide⟩

/-- C1 witness: the amended conditions at the two-build scenario. -/
theorem c1_interesting_pending_witness :
    ((([(⟨("U1".toList), ⟨("carol".toList)⟩, none, [⟨("a-2-1".toList)⟩, ⟨("b-9-9".toList)⟩]⟩ :
        Update)]).map Update.«alias»).Sorted (· ≤ ·)) ∧
    (∃ nvrs, updateNVRs
        ⟨("U1".toList), ⟨("carol".toList)⟩, none, [⟨("a-2-1".toList)⟩, ⟨("b-9-9".toList)⟩]⟩
        = some nvrs ∧
      (∃ p ∈ nvrs, p ∉ [(⟨("a".toList), ("1".toList), ("1".toList)⟩ : NVR)]) ∧
      (∃ p ∈ nvrs, ∃ pkg ∈ [(⟨("a".toList), ("1".toList), ("1".toList)⟩ : NVR)], p.n = pkg.n) ∧
      (∃ p ∈ nvrs, p.n ∈ [("b".toList)])) := by
  have h := c1_interesting_pending [⟨("a".toList), ("1".toList), ("1".toList)⟩] [("b".toList)]
    [⟨("U1".toList), ⟨("carol".toList)⟩, none, [⟨("a-2-1".toList)⟩, ⟨("b-9-9".toList)⟩]⟩]
    [⟨("U1".toList), ⟨("carol".toList)⟩, none, [⟨("a-2-1".toList)⟩, ⟨("b-9-9".toList)⟩]⟩]
    (by decide)
  exact ⟨h.1.1, h.2 _ (by decide)⟩

end FUN
